import Mathlib

/-!
Shallow embedding of the pure core of the Reader-agent repository
(src/app.py): the TOC tree builder build_tree, its pre-order traversal,
the text chunker chunk_text, and the cache filename derivation.

The Python build_tree mutates nodes through aliased references held on a
stack; children are only ever appended to the node currently reachable as
stack[-1] after popping.  The embedding below makes the same construction
explicit: a node receives its children while it is on the stack, and is
attached to the frame directly below it at the moment it is popped (or at
the final flush, which realises the attachments still pending when the
input ends).  The attachment order coincides with the Python append order
because of the stack discipline.  An entry whose level is <= 0 pops the
root frame itself, after which the Python code raises IndexError at
stack[-1]; the embedding returns none in that case.
-/

/-- An outline entry as produced by PDF outline extraction: (level, title, page). -/
abbrev Entry := Int × String × Int

/-- A TOC tree node: level, title, page (none only for the synthetic root),
and the ordered children list.  Mirrors class TOCNode of src/app.py. -/
inductive TOCNode : Type where
  | mk (level : Int) (title : String) (page : Option Int) (children : List TOCNode)

def TOCNode.level : TOCNode → Int
  | .mk l _ _ _ => l

def TOCNode.title : TOCNode → String
  | .mk _ t _ _ => t

def TOCNode.page : TOCNode → Option Int
  | .mk _ _ p _ => p

def TOCNode.children : TOCNode → List TOCNode
  | .mk _ _ _ c => c

@[simp] theorem TOCNode.level_mk (l : Int) (t : String) (p : Option Int)
    (c : List TOCNode) : (TOCNode.mk l t p c).level = l := rfl

@[simp] theorem TOCNode.title_mk (l : Int) (t : String) (p : Option Int)
    (c : List TOCNode) : (TOCNode.mk l t p c).title = t := rfl

@[simp] theorem TOCNode.page_mk (l : Int) (t : String) (p : Option Int)
    (c : List TOCNode) : (TOCNode.mk l t p c).page = p := rfl

@[simp] theorem TOCNode.children_mk (l : Int) (t : String) (p : Option Int)
    (c : List TOCNode) : (TOCNode.mk l t p c).children = c := rfl

/-- The node constructed for an entry at the top of the loop body
(TOCNode(level, title, page) with empty children). -/
def newNode (e : Entry) : TOCNode :=
  TOCNode.mk e.1 e.2.1 (some e.2.2) []

/-- The synthetic root TOCNode(0, "root", None). -/
def rootNode : TOCNode :=
  TOCNode.mk 0 "root" none []

/-- Attach a finished node f as the last child of g.  In the Python code this
append happens by mutation through the stack alias; here it is performed at
the moment f is popped off the stack (or at the final flush). -/
def attachChild (g f : TOCNode) : TOCNode :=
  TOCNode.mk g.level g.title g.page (g.children ++ [f])

/-- The body of the while-loop of build_tree, phrased on a non-empty stack
(top frame f, remaining frames below): pop while the top has level >= l,
attaching each popped frame to the frame below it.  The empty result arises
exactly when the root frame itself is popped, which in the Python code leads
to an IndexError at the following stack[-1]. -/
def popGEAux (l : Int) : TOCNode → List TOCNode → List TOCNode
  | f, [] => if l ≤ f.level then [] else [f]
  | f, g :: gs =>
      if l ≤ f.level then popGEAux l (attachChild g f) gs else f :: g :: gs

/-- The while-loop of build_tree: pop the stack while its top has
level >= l. -/
def popGE (l : Int) : List TOCNode → List TOCNode
  | [] => []
  | f :: rest => popGEAux l f rest

/-- One iteration of the for-loop of build_tree: run the popping loop, then
push the new node (whose later attachment to the new top is thereby
scheduled).  none models the IndexError raised on an emptied stack. -/
def build_step (st : List TOCNode) (e : Entry) : Option (List TOCNode) :=
  match popGE e.1 st with
  | [] => none
  | g :: gs => some (newNode e :: g :: gs)

/-- Realise the attachments still pending on a non-empty stack (top frame f,
frames below) when the input ends, returning the children of the bottom
(root) frame. -/
def flushAux : TOCNode → List TOCNode → List TOCNode
  | f, [] => f.children
  | f, g :: gs => flushAux (attachChild g f) gs

/-- Realise the attachments still pending on the stack when the input ends,
and return the children of the bottom (root) frame — root.children in the
Python code. -/
def flush : List TOCNode → List TOCNode
  | [] => []
  | f :: rest => flushAux f rest

/-- Shallow embedding of build_tree from src/app.py. -/
def build_tree (flat : List Entry) : Option (List TOCNode) :=
  (List.foldlM build_step [rootNode] flat).map flush

mutual

/-- Pre-order listing of the nodes of a subtree: the node first, then its
children's subtrees left to right. -/
def preNode : TOCNode → List TOCNode
  | .mk l t p c => TOCNode.mk l t p c :: preForest c

/-- Pre-order listing of the nodes of a forest. -/
def preForest : List TOCNode → List TOCNode
  | [] => []
  | n :: ns => preNode n ++ preForest ns

end

/-- The (level, title, page) triple stored in a node. -/
def tripleOf (n : TOCNode) : Int × String × Option Int :=
  (n.level, n.title, n.page)

/-- The triple an input entry turns into once placed in the tree. -/
def entryTriple (e : Entry) : Int × String × Option Int :=
  (e.1, e.2.1, some e.2.2)

/-- Concatenated pre-order traversal of a forest, as (level, title, page)
triples. -/
def forestFlat (ns : List TOCNode) : List (Int × String × Option Int) :=
  (preForest ns).map tripleOf

/-- Accumulated pre-order triples of a stack, bottom frame first: the pending
attachments make each frame a future last child of the frame below it, so the
eventual traversal lists the bottom frame's triples first and the top frame's
last. -/
def stackFlat : List TOCNode → List (Int × String × Option Int)
  | [] => []
  | f :: rest => stackFlat rest ++ forestFlat [f]

/-- Well-formedness of a forest relative to a strict lower bound lb on levels:
every top node's level exceeds lb, every node's children are well-formed
relative to the node's own level, and each node's immediate successor sibling
has level at most the node's level. -/
inductive Wf : Int → List TOCNode → Prop where
  | nil (lb : Int) : Wf lb []
  | cons (lb l : Int) (t : String) (p : Option Int) (c ns : List TOCNode) :
      lb < l → Wf l c → Wf lb ns →
      (∀ m, ns.head? = some m → m.level ≤ l) →
      Wf lb (TOCNode.mk l t p c :: ns)

/-- Relation between a stack frame and the frame directly below it: the lower
frame has strictly smaller level, and the upper frame's level is at most the
level of the lower frame's last already-attached child, so that attaching the
upper frame keeps sibling levels non-increasing. -/
def frameRel (f g : TOCNode) : Prop :=
  g.level < f.level ∧ ∀ c, g.children.getLast? = some c → f.level ≤ c.level

/-- Invariant of the build loop after the entries in seen have been
processed. -/
structure StackInv (st : List TOCNode) (seen : List Entry) : Prop where
  flat : stackFlat st = tripleOf rootNode :: seen.map entryTriple
  chain : List.Chain' frameRel st
  wfAll : ∀ f ∈ st, Wf f.level f.children
  bottom : ∀ f, st.getLast? = some f → f.level = 0
  top : ∀ f, st.head? = some f → f.children = []

@[simp] theorem preForest_nil : preForest [] = [] := rfl

theorem preForest_cons (n : TOCNode) (ns : List TOCNode) :
    preForest (n :: ns) = preNode n ++ preForest ns := by
  simp [preForest]

theorem preNode_eq (n : TOCNode) : preNode n = n :: preForest n.children := by
  cases n
  simp [preNode]

theorem preForest_append (as bs : List TOCNode) :
    preForest (as ++ bs) = preForest as ++ preForest bs := by
  induction as with
  | nil => simp
  | cons n ns ih => simp [preForest_cons, ih]

@[simp] theorem forestFlat_nil : forestFlat [] = [] := rfl

theorem forestFlat_cons (n : TOCNode) (ns : List TOCNode) :
    forestFlat (n :: ns) =
      tripleOf n :: (forestFlat n.children ++ forestFlat ns) := by
  simp [forestFlat, preForest_cons, preNode_eq]

theorem forestFlat_append (as bs : List TOCNode) :
    forestFlat (as ++ bs) = forestFlat as ++ forestFlat bs := by
  simp [forestFlat, preForest_append]

theorem forestFlat_singleton (n : TOCNode) :
    forestFlat [n] = tripleOf n :: forestFlat n.children := by
  simp [forestFlat_cons]

@[simp] theorem attachChild_level (g f : TOCNode) :
    (attachChild g f).level = g.level := rfl

@[simp] theorem attachChild_children (g f : TOCNode) :
    (attachChild g f).children = g.children ++ [f] := rfl

theorem tripleOf_attachChild (g f : TOCNode) :
    tripleOf (attachChild g f) = tripleOf g := rfl

theorem stackFlat_cons (f : TOCNode) (rest : List TOCNode) :
    stackFlat (f :: rest) = stackFlat rest ++ forestFlat [f] := rfl

theorem stackFlat_attach (g f : TOCNode) (gs : List TOCNode) :
    stackFlat (attachChild g f :: gs) = stackFlat (f :: g :: gs) := by
  simp [stackFlat_cons, forestFlat_singleton, tripleOf_attachChild,
    forestFlat_append]

theorem tripleOf_newNode (e : Entry) : tripleOf (newNode e) = entryTriple e := rfl

@[simp] theorem newNode_level (e : Entry) : (newNode e).level = e.1 := rfl

@[simp] theorem newNode_children (e : Entry) : (newNode e).children = [] := rfl

theorem Wf_singleton {lb : Int} {f : TOCNode} (h1 : lb < f.level)
    (h2 : Wf f.level f.children) : Wf lb [f] := by
  cases f with
  | mk l t p c =>
      simp only [TOCNode.level_mk, TOCNode.children_mk] at h1 h2
      exact Wf.cons lb l t p c [] h1 h2 (Wf.nil lb) (by intro m hm; simp at hm)

theorem Wf_append_last {f : TOCNode} (hf0 : Wf f.level f.children)
    {lb : Int} {ns : List TOCNode} (h : Wf lb ns) :
    lb < f.level → (∀ c, ns.getLast? = some c → f.level ≤ c.level) →
    Wf lb (ns ++ [f]) := by
  induction h with
  | nil lb =>
      intro hlt _
      simpa using Wf_singleton hlt hf0
  | cons lb l t p c ns hlt hc hns hhead ihc ihns =>
      intro hltf hlast
      rw [List.cons_append]
      refine Wf.cons lb l t p c (ns ++ [f]) hlt hc ?_ ?_
      · refine ihns hltf ?_
        intro c' hc'
        refine hlast c' ?_
        cases ns with
        | nil => simp at hc'
        | cons m ms => simpa [List.getLast?_cons_cons] using hc'
      · intro m hm
        cases ns with
        | nil =>
            simp at hm
            subst hm
            have := hlast (TOCNode.mk l t p c) (by simp)
            simpa using this
        | cons m' ms =>
            simp at hm
            exact hhead m (by simp [hm])

theorem frameRel_attach (g f y : TOCNode) :
    frameRel (attachChild g f) y ↔ frameRel g y := by
  simp [frameRel]

/-- Full specification of the popping loop under the stack invariant: on a
stack whose bottom frame has level 0, a pop request for a level l >= 1 never
empties the stack, preserves the accumulated triples, the frame chain and
frame well-formedness, leaves a top frame of level < l, and bounds the level
of the top frame's last attached child from below by l. -/
theorem popGEAux_spec (l : Int) (hl : 0 < l) :
    ∀ (rest : List TOCNode) (f : TOCNode),
      List.Chain' frameRel (f :: rest) →
      (∀ x ∈ f :: rest, Wf x.level x.children) →
      (∀ x, (f :: rest).getLast? = some x → x.level = 0) →
      (∀ c, f.children.getLast? = some c → l ≤ c.level) →
      ∃ g gs, popGEAux l f rest = g :: gs ∧
        stackFlat (g :: gs) = stackFlat (f :: rest) ∧
        List.Chain' frameRel (g :: gs) ∧
        (∀ x ∈ g :: gs, Wf x.level x.children) ∧
        (∀ x, (g :: gs).getLast? = some x → x.level = 0) ∧
        g.level < l ∧
        (∀ c, g.children.getLast? = some c → l ≤ c.level) := by
  intro rest
  induction rest with
  | nil =>
      intro f hchain hwf hbot htop
      have hf0 : f.level = 0 := hbot f (by simp)
      have hnle : ¬ l ≤ f.level := by omega
      exact ⟨f, [], by simp [popGEAux, hnle], rfl, hchain, hwf, hbot,
        by omega, htop⟩
  | cons g0 gs0 ih =>
      intro f hchain hwf hbot htop
      rw [List.chain'_cons] at hchain
      obtain ⟨hfr, hchain0⟩ := hchain
      by_cases h : l ≤ f.level
      · have hstep : popGEAux l f (g0 :: gs0) = popGEAux l (attachChild g0 f) gs0 := by
          simp [popGEAux, h]
        have hwf_attach : Wf (attachChild g0 f).level (attachChild g0 f).children := by
          simp only [attachChild_level, attachChild_children]
          exact Wf_append_last (hwf f (by simp)) (hwf g0 (by simp)) hfr.1 hfr.2
        have hchain' : List.Chain' frameRel (attachChild g0 f :: gs0) := by
          rw [List.chain'_cons'] at hchain0 ⊢
          refine ⟨?_, hchain0.2⟩
          intro y hy
          exact (frameRel_attach g0 f y).mpr (hchain0.1 y hy)
        have hwf' : ∀ x ∈ attachChild g0 f :: gs0, Wf x.level x.children := by
          intro x hx
          rcases List.mem_cons.mp hx with hx | hx
          · subst hx; exact hwf_attach
          · exact hwf x (by simp [hx])
        have hbot' : ∀ x, (attachChild g0 f :: gs0).getLast? = some x → x.level = 0 := by
          cases gs0 with
          | nil =>
              intro x hx
              simp at hx
              subst hx
              simpa using hbot g0 (by simp)
          | cons a as =>
              intro x hx
              rw [List.getLast?_cons_cons] at hx
              exact hbot x (by simp [List.getLast?_cons_cons, hx])
        have htop' : ∀ c, (attachChild g0 f).children.getLast? = some c → l ≤ c.level := by
          intro c hc
          rw [attachChild_children, List.getLast?_concat] at hc
          cases hc
          exact h
        obtain ⟨g, gs, h1, h2, h3, h4, h5, h6, h7⟩ := ih (attachChild g0 f) hchain' hwf' hbot' htop'
        refine ⟨g, gs, ?_, ?_, h3, h4, h5, h6, h7⟩
        · rw [hstep, h1]
        · rw [h2, stackFlat_attach]
      · refine ⟨f, g0 :: gs0, by simp [popGEAux, h], rfl, ?_, hwf, hbot, ?_, htop⟩
        · rw [List.chain'_cons]
          exact ⟨hfr, hchain0⟩
        · omega

/-- The build loop preserves the stack invariant and never fails as long as
every remaining entry has level >= 1. -/
theorem foldlM_inv :
    ∀ (rest seen : List Entry) (st : List TOCNode),
      (∀ e ∈ rest, 1 ≤ e.1) → StackInv st seen →
      ∃ st', List.foldlM build_step st rest = some st' ∧
        StackInv st' (seen ++ rest) := by
  intro rest
  induction rest with
  | nil =>
      intro seen st _ hinv
      exact ⟨st, by simp, by simpa using hinv⟩
  | cons e rest ih =>
      intro seen st hall hinv
      obtain ⟨f, rest', rfl⟩ : ∃ f rest', st = f :: rest' := by
        cases st with
        | nil => exact absurd hinv.flat (by simp [stackFlat])
        | cons f r => exact ⟨f, r, rfl⟩
      have hl : (0:Int) < e.1 := by have := hall e (by simp); omega
      have htop : ∀ c, f.children.getLast? = some c → e.1 ≤ c.level := by
        intro c hc
        rw [hinv.top f (by simp)] at hc
        simp at hc
      obtain ⟨g, gs, h1, h2, h3, h4, h5, h6, h7⟩ :=
        popGEAux_spec e.1 hl rest' f hinv.chain hinv.wfAll hinv.bottom htop
      have hstep : build_step (f :: rest') e = some (newNode e :: g :: gs) := by
        simp [build_step, popGE, h1]
      have hinv' : StackInv (newNode e :: g :: gs) (seen ++ [e]) := by
        constructor
        · rw [stackFlat_cons, h2, hinv.flat, forestFlat_singleton]
          simp [tripleOf_newNode, List.map_append]
        · rw [List.chain'_cons]
          exact ⟨⟨by simpa using h6, fun c hc => by simpa using h7 c hc⟩, h3⟩
        · intro x hx
          rcases List.mem_cons.mp hx with hx | hx
          · subst hx; simpa using Wf.nil e.1
          · exact h4 x hx
        · intro x hx
          rw [List.getLast?_cons_cons] at hx
          exact h5 x hx
        · intro x hx
          simp at hx
          subst hx
          simp
      obtain ⟨st', hfold, hinvfin⟩ := ih (seen ++ [e]) (newNode e :: g :: gs)
        (fun e' he' => hall e' (by simp [he'])) hinv'
      refine ⟨st', ?_, ?_⟩
      · rw [List.foldlM_cons, hstep]
        simpa using hfold
      · simpa using hinvfin

/-- Specification of the final flush: it returns a forest that is well-formed
above the bottom frame's level and whose traversal continues the accumulated
stack triples. -/
theorem flushAux_spec :
    ∀ (rest : List TOCNode) (f : TOCNode),
      List.Chain' frameRel (f :: rest) →
      (∀ x ∈ f :: rest, Wf x.level x.children) →
      ∃ f0, (f :: rest).getLast? = some f0 ∧ Wf f0.level (flushAux f rest) ∧
        stackFlat (f :: rest) = tripleOf f0 :: forestFlat (flushAux f rest) := by
  intro rest
  induction rest with
  | nil =>
      intro f _ hwf
      refine ⟨f, by simp, ?_, ?_⟩
      · simpa [flushAux] using hwf f (by simp)
      · simp [stackFlat_cons, forestFlat_singleton, flushAux, stackFlat]
  | cons g0 gs0 ih =>
      intro f hchain hwf
      rw [List.chain'_cons] at hchain
      obtain ⟨hfr, hchain0⟩ := hchain
      have hwf_attach : Wf (attachChild g0 f).level (attachChild g0 f).children := by
        simp only [attachChild_level, attachChild_children]
        exact Wf_append_last (hwf f (by simp)) (hwf g0 (by simp)) hfr.1 hfr.2
      have hchain' : List.Chain' frameRel (attachChild g0 f :: gs0) := by
        rw [List.chain'_cons'] at hchain0 ⊢
        exact ⟨fun y hy => (frameRel_attach g0 f y).mpr (hchain0.1 y hy), hchain0.2⟩
      have hwf' : ∀ x ∈ attachChild g0 f :: gs0, Wf x.level x.children := by
        intro x hx
        rcases List.mem_cons.mp hx with hx | hx
        · subst hx; exact hwf_attach
        · exact hwf x (by simp [hx])
      obtain ⟨f0, h1, h2, h3⟩ := ih (attachChild g0 f) hchain' hwf'
      cases gs0 with
      | nil =>
          simp at h1
          refine ⟨g0, by simp, ?_, ?_⟩
          · have hlv : (attachChild g0 f).level = g0.level := rfl
            rw [← hlv, h1]
            exact h2
          · rw [← stackFlat_attach]
            rw [h3, ← h1]
            rfl
      | cons a as =>
          refine ⟨f0, ?_, h2, ?_⟩
          · rw [List.getLast?_cons_cons]
            rw [List.getLast?_cons_cons] at h1
            exact h1
          · rw [← stackFlat_attach]
            exact h3

/-- Master correctness of build_tree: for inputs whose levels are all >= 1
the build succeeds, its concatenated pre-order traversal lists exactly the
input triples in order, and the resulting forest is well-formed above
level 0. -/
theorem build_tree_master (flat : List Entry) (h : ∀ e ∈ flat, 1 ≤ e.1) :
    ∃ F, build_tree flat = some F ∧ forestFlat F = List.map entryTriple flat ∧
      Wf 0 F := by
  have hinit : StackInv [rootNode] [] := by
    constructor
    · simp [stackFlat, forestFlat_singleton, rootNode, tripleOf]
    · simp
    · intro f hf; simp at hf; subst hf; exact Wf.nil _
    · intro f hf; simp at hf; subst hf; rfl
    · intro f hf; simp at hf; subst hf; rfl
  obtain ⟨st', hfold, hinv⟩ := foldlM_inv flat [] [rootNode] h hinit
  obtain ⟨f, rest, rfl⟩ : ∃ f rest, st' = f :: rest := by
    cases st' with
    | nil => exact absurd hinv.flat (by simp [stackFlat])
    | cons f r => exact ⟨f, r, rfl⟩
  obtain ⟨f0, hlast, hwf, hflat⟩ := flushAux_spec rest f hinv.chain hinv.wfAll
  have hl0 : f0.level = 0 := hinv.bottom f0 hlast
  refine ⟨flushAux f rest, ?_, ?_, ?_⟩
  · simp [build_tree, hfold, flush]
  · have htriples := hflat.symm.trans hinv.flat
    simp only [List.nil_append, List.cons.injEq] at htriples
    exact htriples.2
  · rw [← hl0]
    exact hwf

theorem preForest_head? (ns : List TOCNode) :
    (preForest ns).head? = ns.head? := by
  cases ns with
  | nil => rfl
  | cons n ns => rw [preForest_cons, preNode_eq]; rfl

theorem preForest_eq_nil (ns : List TOCNode) : preForest ns = [] ↔ ns = [] := by
  cases ns with
  | nil => simp
  | cons n ns =>
      rw [preForest_cons, preNode_eq]
      simp

theorem mem_preForest_self {n : TOCNode} :
    ∀ {ns : List TOCNode}, n ∈ ns → n ∈ preForest ns := by
  intro ns
  induction ns with
  | nil => intro h; simp at h
  | cons m ms ih =>
      intro h
      rw [preForest_cons, preNode_eq]
      rcases List.mem_cons.mp h with h | h
      · subst h; simp
      · simp [ih h]

theorem Wf_levels {lb : Int} {ms : List TOCNode} (h : Wf lb ms) :
    ∀ x ∈ preForest ms, lb < x.level := by
  induction h with
  | nil => intro x hx; simp at hx
  | cons lb l t p c ns hlt hc hns hhead ihc ihns =>
      intro x hx
      rw [preForest_cons, preNode_eq] at hx
      simp only [TOCNode.children_mk, List.cons_append, List.mem_cons,
        List.mem_append] at hx
      rcases hx with hx | hx | hx
      · subst hx; simpa using hlt
      · exact lt_trans hlt (ihc x hx)
      · exact ihns x hx

/-- Parent-child level invariant of well-formed forests: every node's level
strictly exceeds the level of the node it hangs under. -/
theorem Wf_parent_child {lb : Int} {F : List TOCNode} (h : Wf lb F) :
    ∀ x ∈ preForest F, ∀ n ∈ x.children, x.level < n.level := by
  induction h with
  | nil => intro x hx; simp at hx
  | cons lb l t p c ns hlt hc hns hhead ihc ihns =>
      intro x hx n hn
      rw [preForest_cons, preNode_eq] at hx
      simp only [TOCNode.children_mk, List.cons_append, List.mem_cons,
        List.mem_append] at hx
      rcases hx with hx | hx | hx
      · subst hx
        simp only [TOCNode.children_mk] at hn
        simpa using Wf_levels hc n (mem_preForest_self hn)
      · exact ihc x hx n hn
      · exact ihns x hx n hn

/-- The pre-order node listing of a well-formed forest is closed under taking
children. -/
theorem Wf_children_mem {lb : Int} {F : List TOCNode} (h : Wf lb F) :
    ∀ x ∈ preForest F, ∀ n ∈ x.children, n ∈ preForest F := by
  induction h with
  | nil => intro x hx; simp at hx
  | cons lb l t p c ns hlt hc hns hhead ihc ihns =>
      intro x hx n hn
      rw [preForest_cons, preNode_eq]
      rw [preForest_cons, preNode_eq] at hx
      simp only [TOCNode.children_mk, List.cons_append, List.mem_cons,
        List.mem_append] at hx ⊢
      rcases hx with hx | hx | hx
      · subst hx
        simp only [TOCNode.children_mk] at hn
        exact Or.inr (Or.inl (mem_preForest_self hn))
      · exact Or.inr (Or.inl (ihc x hx n hn))
      · exact Or.inr (Or.inr (ihns x hx n hn))

/-- Relation between a node and its immediate successor in the pre-order node
listing: the node is a leaf exactly when the successor's level does not
exceed its own. -/
def leafRel (x y : TOCNode) : Prop :=
  x.children = [] ↔ ¬ x.level < y.level

/-- In a well-formed forest, adjacent nodes of the pre-order listing satisfy
leafRel, and the final node of the listing is a leaf. -/
theorem wf_leaf_chain {lb : Int} {F : List TOCNode} (h : Wf lb F) :
    List.Chain' leafRel (preForest F) ∧
      ∀ x, (preForest F).getLast? = some x → x.children = [] := by
  induction h with
  | nil => exact ⟨List.chain'_nil, by intro x hx; simp at hx⟩
  | cons lb l t p c ns hlt hc hns hhead ihc ihns =>
      have hlastc : ∀ x, (TOCNode.mk l t p c :: preForest c).getLast? = some x →
          x.children = [] ∧ l ≤ x.level := by
        intro x hx
        cases hpc : preForest c with
        | nil =>
            rw [hpc] at hx
            simp at hx
            subst hx
            have : c = [] := (preForest_eq_nil c).mp hpc
            simp [this]
        | cons m ms =>
            rw [hpc, List.getLast?_cons_cons] at hx
            rw [← hpc] at hx
            have hxmem : x ∈ preForest c := List.mem_of_getLast?_eq_some hx
            exact ⟨ihc.2 x hx, le_of_lt (Wf_levels hc x hxmem)⟩
      constructor
      · rw [preForest_cons, preNode_eq]
        simp only [TOCNode.children_mk, List.cons_append]
        rw [show (TOCNode.mk l t p c :: (preForest c ++ preForest ns)) =
              (TOCNode.mk l t p c :: preForest c) ++ preForest ns by simp]
        rw [List.chain'_append]
        refine ⟨?_, ihns.1, ?_⟩
        · rw [List.chain'_cons']
          refine ⟨?_, ihc.1⟩
          intro y hy
          rw [preForest_head?] at hy
          cases c with
          | nil => simp at hy
          | cons m ms =>
              have hym : m = y := by simpa using hy
              subst hym
              have hlm : l < m.level :=
                Wf_levels hc m (mem_preForest_self (List.mem_cons_self m ms))
              simp only [leafRel, TOCNode.children_mk, TOCNode.level_mk]
              exact iff_of_false (by simp) (by simpa using hlm)
        · intro x hx y hy
          rw [preForest_head?] at hy
          have hyl : y.level ≤ l := hhead y hy
          obtain ⟨hleaf, hge⟩ := hlastc x hx
          simp only [leafRel]
          exact iff_of_true hleaf (by omega)
      · intro x hx
        rw [preForest_cons, preNode_eq] at hx
        simp only [TOCNode.children_mk, List.cons_append] at hx
        cases hpn : preForest ns with
        | nil =>
            rw [hpn] at hx
            rw [show (TOCNode.mk l t p c :: (preForest c ++ [])) =
                  TOCNode.mk l t p c :: preForest c by simp] at hx
            exact (hlastc x hx).1
        | cons m ms =>
            rw [hpn] at hx
            rw [show (TOCNode.mk l t p c :: (preForest c ++ m :: ms)) =
                  (TOCNode.mk l t p c :: preForest c) ++ (m :: ms) by simp] at hx
            rw [List.getLast?_append_of_ne_nil _ (by simp)] at hx
            rw [← hpn] at hx
            exact ihns.2 x hx

/-- A forest all of whose nodes are leaves is exactly the flat list of
nodes rebuilt from its traversal triples. -/
theorem allLeaf_structure : ∀ (F : List TOCNode),
    (∀ x ∈ preForest F, x.children = []) →
    F = (forestFlat F).map (fun tr => TOCNode.mk tr.1 tr.2.1 tr.2.2 []) := by
  intro F
  induction F with
  | nil => intro _; rfl
  | cons n F' ih =>
      intro h
      have hn : n.children = [] := h n (mem_preForest_self (by simp))
      have hrest : ∀ x ∈ preForest F', x.children = [] := by
        intro x hx
        refine h x ?_
        rw [preForest_cons]
        exact List.mem_append_right _ hx
      rw [forestFlat_cons, hn, forestFlat_nil, List.nil_append, List.map_cons]
      congr 1
      · cases n with
        | mk nl nt np nc =>
            simp only [TOCNode.children_mk] at hn
            subst hn
            simp [tripleOf]
      · exact ih hrest

/-- C1: for every input of outline triples with level >= 1, build_tree
succeeds and the concatenated pre-order traversal of the returned forest
reproduces the input sequence exactly — the (level, title, page) triples
match positionally, so sibling order everywhere matches input order. -/
theorem build_tree_preorder_id (flat : List Entry) (h : ∀ e ∈ flat, 1 ≤ e.1) :
    ∃ F, build_tree flat = some F ∧ forestFlat F = List.map entryTriple flat := by
  obtain ⟨F, h1, h2, _⟩ := build_tree_master flat h
  exact ⟨F, h1, h2⟩

/-- Witness for C1 at a concrete two-entry input. -/
theorem build_tree_preorder_id_witness :
    (∀ e ∈ [((1:Int), "A", (1:Int)), ((2:Int), "B", (2:Int))], 1 ≤ e.1) ∧
    ∃ F, build_tree [((1:Int), "A", (1:Int)), ((2:Int), "B", (2:Int))] = some F ∧
      forestFlat F =
        List.map entryTriple [((1:Int), "A", (1:Int)), ((2:Int), "B", (2:Int))] :=
  ⟨by decide, build_tree_preorder_id _ (by decide)⟩

/-- C2 counterexample: an entry whose level is zero is not handled gracefully
by the popping rule — the root frame itself is popped and the following stack
access faults (IndexError in the Python code), so build_tree fails. -/
theorem build_tree_level_zero_fails :
    build_tree [((0:Int), "x", (1:Int))] = none := rfl

/-- C2 amended: build_tree does not fail for any input whose levels are all
at least 1, and no such entry is ever dropped — each input entry's triple
occurs in the traversal of the result. -/
theorem build_tree_total_ge_one (flat : List Entry) (h : ∀ e ∈ flat, 1 ≤ e.1) :
    ∃ F, build_tree flat = some F ∧ ∀ e ∈ flat, entryTriple e ∈ forestFlat F := by
  obtain ⟨F, h1, h2, _⟩ := build_tree_master flat h
  refine ⟨F, h1, fun e he => ?_⟩
  rw [h2]
  exact List.mem_map_of_mem entryTriple he

/-- Witness for the amended C2 at a concrete one-entry input. -/
theorem build_tree_total_ge_one_witness :
    (∀ e ∈ [((1:Int), "a", (1:Int))], 1 ≤ e.1) ∧
    ∃ F, build_tree [((1:Int), "a", (1:Int))] = some F ∧
      ∀ e ∈ [((1:Int), "a", (1:Int))], entryTriple e ∈ forestFlat F :=
  ⟨by decide, build_tree_total_ge_one _ (by decide)⟩

/-- C3: in the forest built from entries of level >= 1, every node hanging
under a parent has level strictly greater than the parent's level. -/
theorem build_tree_parent_child_level (flat : List Entry)
    (h : ∀ e ∈ flat, 1 ≤ e.1) :
    ∃ F, build_tree flat = some F ∧
      ∀ p ∈ preForest F, ∀ n ∈ p.children, p.level < n.level := by
  obtain ⟨F, h1, _, h3⟩ := build_tree_master flat h
  exact ⟨F, h1, Wf_parent_child h3⟩

/-- Witness for C3 at a concrete three-entry input. -/
theorem build_tree_parent_child_level_witness :
    (∀ e ∈ [((1:Int), "c", (1:Int)), ((2:Int), "d", (2:Int)),
        ((2:Int), "e", (3:Int))], 1 ≤ e.1) ∧
    ∃ F, build_tree [((1:Int), "c", (1:Int)), ((2:Int), "d", (2:Int)),
        ((2:Int), "e", (3:Int))] = some F ∧
      ∀ p ∈ preForest F, ∀ n ∈ p.children, p.level < n.level :=
  ⟨by decide, build_tree_parent_child_level _ (by decide)⟩

/-- C4: the documented four-entry example with a level drop from 3 straight
back to 1 builds exactly the two top-level nodes A and B, with A.1 under A,
the leaf A.1.a under A.1, and B a leaf. -/
theorem build_tree_level_drop_example :
    build_tree [((1:Int), "A", (1:Int)), ((2:Int), "A.1", (2:Int)),
      ((3:Int), "A.1.a", (3:Int)), ((1:Int), "B", (4:Int))] =
    some [TOCNode.mk 1 "A" (some 1)
            [TOCNode.mk 2 "A.1" (some 2) [TOCNode.mk 3 "A.1.a" (some 3) []]],
          TOCNode.mk 1 "B" (some 4) []] := rfl

/-- C6: entries that all share one common level (>= 1) all become sibling
leaves directly under the root, in input order. -/
theorem build_tree_flat_siblings (flat : List Entry) (l : Int) (hl : 1 ≤ l)
    (h : ∀ e ∈ flat, e.1 = l) :
    build_tree flat = some (flat.map newNode) := by
  obtain ⟨F, h1, h2, h3⟩ :=
    build_tree_master flat (fun e he => by rw [h e he]; exact hl)
  have hlevels : ∀ x ∈ preForest F, x.level = l := by
    intro x hx
    have hxm : tripleOf x ∈ forestFlat F := List.mem_map_of_mem tripleOf hx
    rw [h2] at hxm
    obtain ⟨e, he, hee⟩ := List.mem_map.mp hxm
    have h1e := congrArg (fun tr => tr.1) hee
    simp only [entryTriple, tripleOf] at h1e
    rw [← h1e]
    exact h e he
  have hleaf : ∀ x ∈ preForest F, x.children = [] := by
    intro x hx
    cases hc : x.children with
    | nil => rfl
    | cons n ns =>
        have hn : n ∈ x.children := by rw [hc]; simp
        have h4 := Wf_parent_child h3 x hx n hn
        have h5 := Wf_children_mem h3 x hx n hn
        rw [hlevels x hx, hlevels n h5] at h4
        omega
  have hF := allLeaf_structure F hleaf
  rw [h2, List.map_map] at hF
  have hcomp : ((fun tr => TOCNode.mk tr.1 tr.2.1 tr.2.2 ([] : List TOCNode)) ∘
      entryTriple) = newNode := by
    funext e
    simp [entryTriple, newNode, Function.comp]
  rw [hcomp] at hF
  rw [h1, hF]

/-- Witness for C6 at the documented X, Y, Z example. -/
theorem build_tree_flat_siblings_witness :
    (1:Int) ≤ 1 ∧
    (∀ e ∈ [((1:Int), "X", (1:Int)), ((1:Int), "Y", (2:Int)),
        ((1:Int), "Z", (3:Int))], e.1 = 1) ∧
    build_tree [((1:Int), "X", (1:Int)), ((1:Int), "Y", (2:Int)),
        ((1:Int), "Z", (3:Int))] =
      some (List.map newNode [((1:Int), "X", (1:Int)), ((1:Int), "Y", (2:Int)),
        ((1:Int), "Z", (3:Int))]) :=
  ⟨by decide, by decide, build_tree_flat_siblings _ 1 (by decide) (by decide)⟩

/-- C8: the empty input builds the empty forest. -/
theorem build_tree_empty : build_tree [] = some [] := rfl

/-- The nested single chain built from a nonempty list of entries: each node
carries the corresponding entry and has the node of the next entry as its
only child; the final node is a leaf. -/
def chainOf : Entry → List Entry → TOCNode
  | e, [] => newNode e
  | e, e' :: rest => TOCNode.mk e.1 e.2.1 (some e.2.2) [chainOf e' rest]

/-- Pushing a list of entries onto the stack with no popping at all. -/
def pushAll (st : List TOCNode) : List Entry → List TOCNode
  | [] => st
  | e :: rest => pushAll (newNode e :: st) rest

theorem popGE_no_pop (l : Int) (f : TOCNode) (fs : List TOCNode)
    (h : f.level < l) : popGE l (f :: fs) = f :: fs := by
  have hnle : ¬ l ≤ f.level := not_le.mpr h
  cases fs with
  | nil => simp [popGE, popGEAux, hnle]
  | cons g gs => simp [popGE, popGEAux, hnle]

/-- On strictly increasing levels above the current top of the stack, the
build loop performs no pops: it just pushes every entry. -/
theorem foldlM_increasing :
    ∀ (entries : List Entry) (f : TOCNode) (fs : List TOCNode),
      (∀ e0, entries.head? = some e0 → f.level < e0.1) →
      List.Chain' (fun a b : Entry => a.1 < b.1) entries →
      List.foldlM build_step (f :: fs) entries =
        some (pushAll (f :: fs) entries) := by
  intro entries
  induction entries with
  | nil => intro f fs _ _; simp [pushAll]
  | cons e rest ih =>
      intro f fs hhead hchain
      have hf : f.level < e.1 := hhead e rfl
      have hpop : popGE e.1 (f :: fs) = f :: fs := popGE_no_pop _ _ _ hf
      have hstep : build_step (f :: fs) e = some (newNode e :: f :: fs) := by
        simp [build_step, hpop]
      rw [List.chain'_cons'] at hchain
      have hrec := ih (newNode e) (f :: fs)
        (fun e0 he0 => by simpa using hchain.1 e0 he0) hchain.2
      rw [List.foldlM_cons, hstep]
      simpa [pushAll] using hrec

/-- Flushing a stack produced by pushing entries with no pops yields the
nested chain of those entries attached under the frame below. -/
theorem flush_pushAll :
    ∀ (rest : List Entry) (e : Entry) (g : TOCNode) (gs : List TOCNode),
      flush (pushAll (g :: gs) (e :: rest)) =
        flush (attachChild g (chainOf e rest) :: gs) := by
  intro rest
  induction rest with
  | nil => intro e g gs; rfl
  | cons e' rest' ih =>
      intro e g gs
      have h1 : pushAll (g :: gs) (e :: e' :: rest') =
          pushAll (newNode e :: g :: gs) (e' :: rest') := rfl
      rw [h1, ih e' (newNode e) (g :: gs)]
      have h2 : attachChild (newNode e) (chainOf e' rest') =
          chainOf e (e' :: rest') := by
        simp [attachChild, newNode, chainOf]
      rw [h2]
      rfl

/-- C7: an input with strictly increasing levels builds a single chain:
exactly one top-level node, every node having as its only child the node of
the next entry, and the final node a leaf. -/
theorem build_tree_increasing_chain (e : Entry) (rest : List Entry)
    (he : 1 ≤ e.1)
    (hinc : List.Chain' (fun a b : Entry => a.1 < b.1) (e :: rest)) :
    build_tree (e :: rest) = some [chainOf e rest] := by
  have hhead : ∀ e0, (e :: rest).head? = some e0 → rootNode.level < e0.1 := by
    intro e0 he0
    have heq : e = e0 := by simpa using he0
    subst heq
    simp only [rootNode, TOCNode.level_mk]
    omega
  have hfold := foldlM_increasing (e :: rest) rootNode [] hhead hinc
  rw [build_tree, hfold]
  simp only [Option.map_some']
  rw [flush_pushAll rest e rootNode []]
  rfl

/-- Witness for C7 at the documented strictly increasing example with levels
1, 2, 3, 4. -/
theorem build_tree_increasing_chain_witness :
    ((1:Int) ≤ 1 ∧
      List.Chain' (fun a b : Entry => a.1 < b.1)
        [((1:Int), "a", (1:Int)), ((2:Int), "b", (2:Int)),
         ((3:Int), "c", (3:Int)), ((4:Int), "d", (4:Int))]) ∧
    build_tree [((1:Int), "a", (1:Int)), ((2:Int), "b", (2:Int)),
        ((3:Int), "c", (3:Int)), ((4:Int), "d", (4:Int))] =
      some [chainOf ((1:Int), "a", (1:Int))
        [((2:Int), "b", (2:Int)), ((3:Int), "c", (3:Int)),
         ((4:Int), "d", (4:Int))]] :=
  ⟨⟨by decide, by norm_num [List.chain'_cons, List.chain'_singleton]⟩,
    build_tree_increasing_chain _ _ (by decide)
      (by norm_num [List.chain'_cons, List.chain'_singleton])⟩

/-- The level of the i-th input entry (0 out of range). -/
def levelAt (flat : List Entry) (i : Nat) : Int :=
  (flat.getD i ((0:Int), "", (0:Int))).1

/-- The i-th node of the pre-order listing of a forest (the root sentinel out
of range). -/
def preAt (F : List TOCNode) (i : Nat) : TOCNode :=
  (preForest F).getD i rootNode

/-- The spec's condition for the i-th entry to receive children: a subsequent
entry has strictly greater level and occurs before the next entry whose level
is at most that of entry i. -/
def specHasChild (flat : List Entry) (i : Nat) : Prop :=
  ∃ j, i < j ∧ j < flat.length ∧ levelAt flat i < levelAt flat j ∧
    ∀ k, i < k → k < j → ¬ levelAt flat k ≤ levelAt flat i

/-- The spec's child condition collapses to a comparison with the immediately
following entry. -/
theorem specHasChild_iff_next (flat : List Entry) (i : Nat) :
    specHasChild flat i ↔
      (i + 1 < flat.length ∧ levelAt flat i < levelAt flat (i + 1)) := by
  constructor
  · rintro ⟨j, hij, hj, hlt, hall⟩
    by_cases hji : j = i + 1
    · subst hji
      exact ⟨hj, hlt⟩
    · have hk := hall (i + 1) (by omega) (by omega)
      exact ⟨by omega, by omega⟩
  · rintro ⟨hj, hlt⟩
    exact ⟨i + 1, by omega, hj, hlt, fun k hk1 hk2 => by omega⟩

/-- C5: a node of the built forest is a leaf exactly when no subsequent input
entry has a strictly greater level before the next entry of level at most the
node's own level. -/
theorem build_tree_leaf_iff (flat : List Entry) (h : ∀ e ∈ flat, 1 ≤ e.1)
    (i : Nat) (hi : i < flat.length) :
    ∃ F, build_tree flat = some F ∧
      ((preAt F i).children = [] ↔ ¬ specHasChild flat i) := by
  obtain ⟨F, h1, h2, h3⟩ := build_tree_master flat h
  refine ⟨F, h1, ?_⟩
  obtain ⟨hchain, hlast⟩ := wf_leaf_chain h3
  have hlen : (preForest F).length = flat.length := by
    have := congrArg List.length h2
    simpa [forestFlat] using this
  have preAt_eq : ∀ (j) (hj : j < (preForest F).length),
      preAt F j = (preForest F)[j] := by
    intro j hj
    simp [preAt, List.getD_eq_getElem?_getD, List.getElem?_eq_getElem hj]
  have hlev : ∀ (j) (hj : j < flat.length), (preAt F j).level = levelAt flat j := by
    intro j hj
    have hj' : j < (preForest F).length := by omega
    have hq := congrArg (fun L => L[j]?) h2
    simp only [forestFlat, List.getElem?_map] at hq
    rw [List.getElem?_eq_getElem hj', List.getElem?_eq_getElem hj] at hq
    simp only [Option.map_some', Option.some.injEq] at hq
    have hfst := congrArg (fun tr => tr.1) hq
    simp only [tripleOf, entryTriple] at hfst
    rw [preAt_eq j hj', levelAt]
    simp only [List.getD_eq_getElem?_getD, List.getElem?_eq_getElem hj,
      Option.getD_some]
    exact hfst
  rw [specHasChild_iff_next]
  by_cases hnext : i + 1 < flat.length
  · have hadj := List.chain'_iff_get.mp hchain i (by omega)
    simp only [List.get_eq_getElem] at hadj
    rw [← preAt_eq i (by omega), ← preAt_eq (i + 1) (by omega)] at hadj
    simp only [leafRel] at hadj
    rw [hadj, hlev i hi, hlev (i + 1) hnext]
    constructor
    · intro hno
      intro hcon
      exact hno hcon.2
    · intro hno
      intro hcon
      exact hno ⟨hnext, hcon⟩
  · have hlast' : (preForest F).getLast? = some (preAt F i) := by
      rw [List.getLast?_eq_getElem?]
      have hi' : i < (preForest F).length := by omega
      have hieq : (preForest F).length - 1 = i := by omega
      rw [hieq, List.getElem?_eq_getElem hi', preAt_eq i hi']
    have hleaf := hlast (preAt F i) hlast'
    rw [hleaf]
    constructor
    · intro _
      intro hcon
      omega
    · intro _
      rfl

/-- The cache directory constant of src/app.py. -/
def CACHE_DIR : String := "./cache"

/-- Shallow embedding of get_cache_filename from src/app.py.  The uuid5
computation (Python's deterministic name-based UUID over the DNS namespace,
an external library) is passed in as a function of the name text ++ voice. -/
def get_cache_filename (uuid5 : String → String) (text voice : String) : String :=
  CACHE_DIR ++ "/" ++ uuid5 (text ++ voice) ++ "_" ++ voice ++ ".wav"

/-- C9: cache filename derivation is a stable deterministic function of the
pair (text, voice): any two calls with equal text and equal voice return the
identical filename, whichever deterministic uuid5 function is plugged in. -/
theorem get_cache_filename_stable (uuid5 : String → String)
    (t1 v1 t2 v2 : String) (ht : t1 = t2) (hv : v1 = v2) :
    get_cache_filename uuid5 t1 v1 = get_cache_filename uuid5 t2 v2 := by
  rw [ht, hv]

/-- Witness for C9 at concrete strings. -/
theorem get_cache_filename_stable_witness :
    ("a" = "a" ∧ "b" = "b") ∧
    get_cache_filename id "a" "b" = get_cache_filename id "a" "b" :=
  ⟨⟨rfl, rfl⟩, get_cache_filename_stable id "a" "b" "a" "b" rfl rfl⟩

/-- The configured chunk size CHUNK_CHAR_LIMIT of src/app.py. -/
def CHUNK_CHAR_LIMIT : Nat := 3000

/-- Shallow embedding of chunk_text from src/app.py: the comprehension
[text[i:i+limit] for i in range(0, len(text), limit)] over the text's
characters; range(0, n, limit) has (n + limit - 1) / limit elements when
limit >= 1. -/
def chunk_text (text : List Char) (limit : Nat) : List (List Char) :=
  (List.range' 0 ((text.length + limit - 1) / limit) limit).map
    (fun i => (text.drop i).take limit)

theorem chunk_text_nil (limit : Nat) (h : 0 < limit) :
    chunk_text [] limit = [] := by
  obtain ⟨l, rfl⟩ : ∃ l, limit = l + 1 := ⟨limit - 1, by omega⟩
  simp [chunk_text, Nat.div_eq_of_lt (show l < l + 1 by omega)]

/-- Unfolding equation of the chunker on a non-empty text. -/
theorem chunk_text_cons (l : Nat) (c : Char) (cs : List Char) :
    chunk_text (c :: cs) (l + 1) =
      (c :: cs).take (l + 1) :: chunk_text ((c :: cs).drop (l + 1)) (l + 1) := by
  have hcount : ((c :: cs).length + (l + 1) - 1) / (l + 1) =
      (((c :: cs).drop (l + 1)).length + (l + 1) - 1) / (l + 1) + 1 := by
    simp only [List.length_drop, List.length_cons]
    rcases le_or_lt l cs.length with hge | hlt
    · have e1 : cs.length + 1 + (l + 1) - 1 = cs.length + (l + 1) := by omega
      have e2 : cs.length + 1 - (l + 1) + (l + 1) - 1 = cs.length := by omega
      rw [e1, e2, Nat.add_div_right _ (by omega)]
    · have e1 : cs.length + 1 - (l + 1) + (l + 1) - 1 = l := by omega
      have e2 : (cs.length + 1 + (l + 1) - 1) / (l + 1) = 1 :=
        Nat.div_eq_of_lt_le (by omega) (by omega)
      have e3 : l / (l + 1) = 0 := Nat.div_eq_of_lt (by omega)
      rw [e1, e2, e3]
  rw [chunk_text, chunk_text, hcount, List.range'_succ, List.map_cons,
    Nat.zero_add]
  have hmap := List.map_add_range' (l + 1) 0
    ((((c :: cs).drop (l + 1)).length + (l + 1) - 1) / (l + 1)) (l + 1)
  rw [Nat.add_zero] at hmap
  have hhead : List.take (l + 1) (List.drop 0 (c :: cs)) =
      List.take (l + 1) (c :: cs) := rfl
  have htail : List.map (fun i => List.take (l + 1) (List.drop i (c :: cs)))
      (List.range' (l + 1)
        ((((c :: cs).drop (l + 1)).length + (l + 1) - 1) / (l + 1)) (l + 1)) =
      List.map (fun i => List.take (l + 1) (List.drop i ((c :: cs).drop (l + 1))))
      (List.range' 0
        ((((c :: cs).drop (l + 1)).length + (l + 1) - 1) / (l + 1)) (l + 1)) := by
    rw [← hmap, List.map_map]
    refine List.map_congr_left ?_
    intro i _
    have hadd : l + 1 + i = (l + i) + 1 := by omega
    simp [Function.comp, List.drop_drop, hadd]
  exact congrArg₂ List.cons hhead htail

theorem chunk_text_flatten (l : Nat) :
    ∀ (n : Nat) (text : List Char), text.length ≤ n →
      (chunk_text text (l + 1)).flatten = text := by
  intro n
  induction n with
  | zero =>
      intro text ht
      cases text with
      | nil => simp [chunk_text_nil (l + 1) (by omega)]
      | cons a as => simp at ht
  | succ n ih =>
      intro text ht
      cases text with
      | nil => simp [chunk_text_nil (l + 1) (by omega)]
      | cons c cs =>
          rw [chunk_text_cons, List.flatten_cons]
          rw [ih ((c :: cs).drop (l + 1))
            (by simp only [List.length_drop, List.length_cons] at ht ⊢; omega)]
          exact List.take_append_drop _ _

theorem chunk_text_dropLast_len (l : Nat) :
    ∀ (n : Nat) (text : List Char), text.length ≤ n →
      ∀ ch ∈ (chunk_text text (l + 1)).dropLast, ch.length = l + 1 := by
  intro n
  induction n with
  | zero =>
      intro text ht ch hch
      cases text with
      | nil =>
          rw [chunk_text_nil (l + 1) (by omega)] at hch
          simp at hch
      | cons a as => simp at ht
  | succ n ih =>
      intro text ht ch hch
      cases text with
      | nil =>
          rw [chunk_text_nil (l + 1) (by omega)] at hch
          simp at hch
      | cons c cs =>
          rw [chunk_text_cons] at hch
          cases hrest : chunk_text ((c :: cs).drop (l + 1)) (l + 1) with
          | nil =>
              rw [hrest] at hch
              simp at hch
          | cons r rs =>
              rw [hrest, List.dropLast_cons₂] at hch
              rcases List.mem_cons.mp hch with hch | hch
              · subst hch
                have hne : (c :: cs).drop (l + 1) ≠ [] := by
                  intro h0
                  rw [h0, chunk_text_nil (l + 1) (by omega)] at hrest
                  exact List.noConfusion hrest
                have hlen : l + 1 ≤ cs.length + 1 := by
                  by_contra hcon
                  exact hne (List.drop_eq_nil_of_le (by simp; omega))
                simp only [List.length_take, List.length_cons]
                omega
              · rw [← hrest] at hch
                exact ih ((c :: cs).drop (l + 1))
                  (by simp only [List.length_drop, List.length_cons] at ht ⊢; omega)
                  ch hch

theorem chunk_text_len_le (l : Nat) :
    ∀ (n : Nat) (text : List Char), text.length ≤ n →
      ∀ ch ∈ chunk_text text (l + 1), ch.length ≤ l + 1 := by
  intro n
  induction n with
  | zero =>
      intro text ht ch hch
      cases text with
      | nil =>
          rw [chunk_text_nil (l + 1) (by omega)] at hch
          simp at hch
      | cons a as => simp at ht
  | succ n ih =>
      intro text ht ch hch
      cases text with
      | nil =>
          rw [chunk_text_nil (l + 1) (by omega)] at hch
          simp at hch
      | cons c cs =>
          rw [chunk_text_cons] at hch
          rcases List.mem_cons.mp hch with hch | hch
          · subst hch
            simp only [List.length_take, List.length_cons]
            omega
          · exact ih ((c :: cs).drop (l + 1))
              (by simp only [List.length_drop, List.length_cons] at ht ⊢; omega)
              ch hch

/-- C10: for every text and positive limit, chunk_text returns chunks whose
in-order concatenation is the text, every chunk except possibly the last has
length exactly limit, every chunk has length at most limit, and the empty
text yields no chunks. -/
theorem chunk_text_spec (text : List Char) (limit : Nat) (h : 0 < limit) :
    (chunk_text text limit).flatten = text ∧
    (∀ ch ∈ (chunk_text text limit).dropLast, ch.length = limit) ∧
    (∀ ch ∈ chunk_text text limit, ch.length ≤ limit) ∧
    (text = [] → chunk_text text limit = []) := by
  obtain ⟨l, rfl⟩ : ∃ l, limit = l + 1 := ⟨limit - 1, by omega⟩
  refine ⟨chunk_text_flatten l text.length text le_rfl,
    chunk_text_dropLast_len l text.length text le_rfl,
    chunk_text_len_le l text.length text le_rfl, fun he => ?_⟩
  rw [he]
  exact chunk_text_nil (l + 1) (by omega)

/-- Witness for C10 at a concrete four-character text and limit 3. -/
theorem chunk_text_spec_witness :
    0 < 3 ∧
    ((chunk_text ['a', 'b', 'c', 'd'] 3).flatten = ['a', 'b', 'c', 'd'] ∧
     (∀ ch ∈ (chunk_text ['a', 'b', 'c', 'd'] 3).dropLast, ch.length = 3) ∧
     (∀ ch ∈ chunk_text ['a', 'b', 'c', 'd'] 3, ch.length ≤ 3) ∧
     (['a', 'b', 'c', 'd'] = ([] : List Char) →
       chunk_text ['a', 'b', 'c', 'd'] 3 = [])) :=
  ⟨by decide, chunk_text_spec ['a', 'b', 'c', 'd'] 3 (by decide)⟩

/-- Witness for C5 at a concrete two-entry input and index 0. -/
theorem build_tree_leaf_iff_witness :
    ((∀ e ∈ [((1:Int), "x", (1:Int)), ((2:Int), "y", (2:Int))], 1 ≤ e.1) ∧
      0 < [((1:Int), "x", (1:Int)), ((2:Int), "y", (2:Int))].length) ∧
    ∃ F, build_tree [((1:Int), "x", (1:Int)), ((2:Int), "y", (2:Int))] = some F ∧
      ((preAt F 0).children = [] ↔
        ¬ specHasChild [((1:Int), "x", (1:Int)), ((2:Int), "y", (2:Int))] 0) :=
  ⟨⟨by decide, by decide⟩, build_tree_leaf_iff _ (by decide) 0 (by decide)⟩
